import Mathlib

/-!
Verification of `more/pathtool/main.py`.

The module walks the dectate action registry of a Morepath application
class, resolves every path and view declaration to a URL path, normalizes
the resulting records, sorts them, and renders them as text or CSV.

This file is a shallow embedding of that module.  Python dicts holding
records become a structure whose sometimes-absent keys are `Option`
fields; the dectate registry queries become the stored action lists of an
application-tree value; `inspect.getmro` becomes a stored linearization of
each model class, as the spec's design notes direct; code that can raise
(`max` of an empty sequence, `.items()` on a string) returns
`Except String`.  Python's `sorted` is a stable sort by a key tuple;
`List.insertionSort` with the non-strict key order computes the same list.
Python compares strings lexicographically by code point, which is the
`List Char` lexicographic order on `String.data`; all sort keys therefore
read strings off as `.data`.
-/

/-- Source location metadata of a dectate directive (`directive.code_info`):
`path` is the source filename, `lineno` the line number, and `filelineno`
the preformatted location string the external library returns from
`code_info.filelineno()`, stored here as opaque data. -/
structure CodeInfo where
  path : String
  lineno : Nat
  filelineno : String
  deriving Repr, DecidableEq

/-- A Python class object as the tool uses it: an identity for dictionary
keying, the `__module__` and `__name__` attributes read by `dotted_name`,
and the precomputed method resolution order (`inspect.getmro`, most-derived
first) as a list of class identities. -/
structure ModelType where
  id : Nat
  module : String
  name : String
  mro : List Nat
  deriving Repr, DecidableEq

/-- `dotted_name` from the source: `cls.__module__ + '.' + cls.__name__`. -/
def dotted_name (cls : ModelType) : String :=
  cls.module ++ "." ++ cls.name

/-- A morepath `ViewAction` as consumed by the tool: declaring model type,
predicate dict (an association list in dict iteration order), the
`internal` flag, the directive name the registry reports for the action,
and its source location. -/
structure ViewActionData where
  model : ModelType
  predicates : List (String × String)
  internal : Bool
  directiveName : String
  codeInfo : CodeInfo
  deriving Repr, DecidableEq

/-- A morepath `PathAction` (or the path-data part of a `MountAction`):
declaring model type, the declared path template, the `absorb` flag, the
directive name the registry reports, and the source location. -/
structure PathActionData where
  model : ModelType
  path : String
  absorb : Bool
  directiveName : String
  codeInfo : CodeInfo
  deriving Repr, DecidableEq

mutual
/-- An application class together with its dectate registry, abstracted to
the two queries the tool performs: `Query(PathAction)` (the path and mount
actions, in declaration order) and `Query(ViewAction)`.  A mounted
sub-application is a nested `App` value, so an application tree is finite
and acyclic by construction. -/
inductive App : Type where
  | mk : List PathOrMount → List ViewActionData → App

/-- One element of the `Query(PathAction)` result: a plain path declaration,
or a mount declaration carrying its nested application. -/
inductive PathOrMount : Type where
  | pathD : PathActionData → PathOrMount
  | mountD : PathActionData → App → PathOrMount
end

/-- The path/mount actions of an application (`Query(PathAction)`). -/
def App.paths : App → List PathOrMount
  | App.mk ps _ => ps

/-- The view actions of an application (`Query(ViewAction)`). -/
def App.views : App → List ViewActionData
  | App.mk _ vs => vs

/-- The `PathActionData` carried by a path or mount declaration. -/
def PathOrMount.data : PathOrMount → PathActionData
  | PathOrMount.pathD d => d
  | PathOrMount.mountD d _ => d

/-- Python `s.startswith(pre)`: per code point, a prefix test on the
character list. -/
def starts_with (s pre : String) : Bool :=
  pre.data.isPrefixOf s.data

/-- Python `s.endswith(suf)`: per code point, a suffix test on the
character list. -/
def ends_with (s suf : String) : Bool :=
  suf.data.isSuffixOf s.data

/-- Python `s[n:]`: drop the first `n` characters. -/
def str_drop (s : String) (n : Nat) : String :=
  String.mk (s.data.drop n)

/-- Python `s[:-n]` for positive `n`: drop the last `n` characters. -/
def str_drop_right (s : String) (n : Nat) : String :=
  String.mk (s.data.take (s.data.length - n))

/-- `normalize_path` from the source: strip one leading and one trailing
`/` (Python `path[1:]` and `path[:-1]` guarded by `startswith`/`endswith`). -/
def normalize_path (path : String) : String :=
  let path := if starts_with path "/" then str_drop path 1 else path
  if ends_with path "/" then str_drop_right path 1 else path

/-- The path computation inside `get_path_actions`:
`'/'.join([base_path, normalize_path(action.path)])` — which is
`base_path ++ "/" ++ normalize_path action.path` — followed by the
`'/...'` suffix when the action's `absorb` flag is set. -/
def resolved_path (base_path : String) (action : PathActionData) : String :=
  let path := base_path ++ "/" ++ normalize_path action.path
  if action.absorb then path ++ "/..." else path

/-- `get_path_actions`: one `(action, path)` pair per element of
`Query(PathAction)`, in declaration order.  The source's
`isinstance(action, (PathAction, MountAction))` filter keeps every element,
since the embedded query yields exactly those two kinds. -/
def get_path_actions (app_class : App) (base_path : String) :
    List (PathOrMount × String) :=
  app_class.paths.map (fun action => (action, resolved_path base_path action.data))

/-- Python `dict.get(key, dflt)` on a predicate mapping. -/
def dict_get (d : List (String × String)) (key dflt : String) : String :=
  match d.find? (fun kv => kv.1 == key) with
  | some kv => kv.2
  | none => dflt

/-- The `model_to_view` index built at the top of `get_path_and_view_actions`:
`model_to_view.setdefault(action.model, []).append(action)` over
`Query(ViewAction)` leaves, for each model class, exactly the view actions
declared for that class, in declaration order. -/
def model_to_view (view_actions : List ViewActionData) (cls : Nat) :
    List ViewActionData :=
  view_actions.filter (fun v => v.model.id == cls)

/-- The action kinds that appear in the `(action, path)` stream produced by
`get_path_and_view_actions`. -/
inductive AnyAction : Type where
  | pathA : PathActionData → AnyAction
  | mountA : PathActionData → AnyAction
  | viewA : ViewActionData → AnyAction
  deriving Repr, DecidableEq

/-- `action.model` on any streamed action. -/
def AnyAction.model : AnyAction → ModelType
  | AnyAction.pathA d => d.model
  | AnyAction.mountA d => d.model
  | AnyAction.viewA v => v.model

/-- The directive name the dectate registry reports for the action
(`directive.configurable._action_classes[directive.action_factory]`). -/
def AnyAction.directiveName : AnyAction → String
  | AnyAction.pathA d => d.directiveName
  | AnyAction.mountA d => d.directiveName
  | AnyAction.viewA v => v.directiveName

/-- `action.directive.code_info` on any streamed action. -/
def AnyAction.codeInfo : AnyAction → CodeInfo
  | AnyAction.pathA d => d.codeInfo
  | AnyAction.mountA d => d.codeInfo
  | AnyAction.viewA v => v.codeInfo

/-- The per-view path computed in `get_view_actions`: the owning path, with
`/+<name>` appended when the `name` predicate is a non-empty string
(`if name:`). -/
def view_sub_path (base_path : String) (view_action : ViewActionData) : String :=
  let name := dict_get view_action.predicates "name" ""
  if name == "" then base_path else base_path ++ "/+" ++ name

/-- `get_view_actions`: gather the indexed view actions of every class in
the model's MRO (`view_actions.extend(model_to_view.get(class_, []))`),
then yield each with its sub-path.  The source's `app_class` parameter is
unused there and omitted here. -/
def get_view_actions (base_path : String) (mtv : Nat → List ViewActionData)
    (model : ModelType) : List (AnyAction × String) :=
  let view_actions := model.mro.flatMap (fun class_ => mtv class_)
  view_actions.map (fun view_action =>
    (AnyAction.viewA view_action, view_sub_path base_path view_action))

mutual
/-- `get_path_and_view_actions`: build the current application's
`model_to_view` index from its own `Query(ViewAction)`, then loop over
`get_path_actions`, yielding each path or mount action with its resolved
path; a mount recurses into its nested application with the mount's path
as the new base and attaches no views (`continue`), while a plain path
action is followed by its attached view actions. -/
def get_path_and_view_actions : App → String → List (AnyAction × String)
  | App.mk poms views, base_path => walk_path_actions poms views base_path

/-- The `for action, path in get_path_actions(...)` loop of
`get_path_and_view_actions`, with the generator fused in: each action's
resolved path is `resolved_path base_path`, and `views` is the enclosing
application's `Query(ViewAction)` result that feeds `model_to_view`. -/
def walk_path_actions : List PathOrMount → List ViewActionData → String →
    List (AnyAction × String)
  | [], _, _ => []
  | PathOrMount.pathD d :: rest, views, base_path =>
      (AnyAction.pathA d, resolved_path base_path d) ::
        (get_view_actions (resolved_path base_path d) (model_to_view views) d.model ++
          walk_path_actions rest views base_path)
  | PathOrMount.mountD d sub :: rest, views, base_path =>
      (AnyAction.mountA d, resolved_path base_path d) ::
        (get_path_and_view_actions sub (resolved_path base_path d) ++
          walk_path_actions rest views base_path)
end

/-- A value stored under the `predicates` key of a record dict: the original
predicate mapping, or the comma-joined string `format_text_helper`
overwrites it with. -/
inductive PredVal : Type where
  | map : List (String × String) → PredVal
  | str : String → PredVal
  deriving Repr, DecidableEq

/-- One record dict built by `get_path_and_view_info`.  Keys the source only
sometimes inserts are `Option` fields, with `none` meaning the key is
absent; `model` is declared `Option` so that key presence is expressible at
all, although the source inserts it unconditionally. -/
structure Info where
  directive : String
  filelineno : String
  path : String
  sort_path : String
  model : Option String
  filename : String
  lineno : Nat
  predicates : Option PredVal
  view_name : Option String
  request_method : Option String
  extra_predicates : Option String
  predicates_s : Option String
  deriving Repr, DecidableEq

/-- The record-building loop body of `get_path_and_view_info` for one
`(action, path)` pair: the base dict is filled for every action kind
(`model` included); a view action additionally stores its predicates, the
defaulted `view_name` and `request_method`, sets `extra_predicates` to
`'y'` when predicate keys beyond `name`/`request_method` exist, and
overwrites `path` with `'internal'` when the view is internal. -/
def make_info : AnyAction × String → Info
  | (action, path) =>
    let base : Info :=
      { directive := action.directiveName
        filelineno := action.codeInfo.filelineno
        path := path
        sort_path := path
        model := some (dotted_name action.model)
        filename := action.codeInfo.path
        lineno := action.codeInfo.lineno
        predicates := none
        view_name := none
        request_method := none
        extra_predicates := none
        predicates_s := none }
    match action with
    | AnyAction.viewA v =>
        let d := { base with
          predicates := some (PredVal.map v.predicates)
          view_name := some (dict_get v.predicates "name" "")
          request_method := some (dict_get v.predicates "request_method" "GET")
          extra_predicates :=
            if v.predicates.any
                (fun kv => !(kv.1 == "name" || kv.1 == "request_method")) then
              some "y"
            else none }
        if v.internal then { d with path := "internal" } else d
    | _ => base

/-- `directive_sort_key`: `(directive not in ['path', 'mount'], directive)`. -/
def directive_sort_key (directive : String) : Bool × String :=
  (!(directive == "path" || directive == "mount"), directive)

/-- The type of the sort key tuple.  Python compares tuples lexicographically,
booleans as `False < True`, and strings by code point — the `List Char`
lexicographic order on `String.data`. -/
abbrev SortKey :=
  Lex (List Char ×
    Lex (Lex (Bool × List Char) ×
      Lex (List Char × Lex (List Char × Lex (List Char × Nat)))))

/-- The key function inside `sort_path_and_view_info`:
`(d['sort_path'], directive_sort_key(d['directive']), d.get('view_name', ''),
d.get('request_method', ''), d['filename'], d['lineno'])`, each string
component read off as its code-point list. -/
def info_sort_key (d : Info) : SortKey :=
  toLex (d.sort_path.data,
    toLex (toLex ((directive_sort_key d.directive).1,
                  (directive_sort_key d.directive).2.data),
      toLex ((d.view_name.getD "").data,
        toLex ((d.request_method.getD "").data,
          toLex (d.filename.data, d.lineno)))))

/-- The record ordering `sorted(infos, key=key)` sorts by. -/
def info_le (a b : Info) : Prop := info_sort_key a ≤ info_sort_key b

instance : DecidableRel info_le := fun a b =>
  inferInstanceAs (Decidable (info_sort_key a ≤ info_sort_key b))

instance : IsTrans Info info_le := ⟨fun _ _ _ hab hbc => le_trans hab hbc⟩

instance : IsTotal Info info_le := ⟨fun _ _ => le_total _ _⟩

instance : IsRefl Info info_le := ⟨fun _ => le_refl _⟩

/-- `sort_path_and_view_info(infos)`: Python's `sorted` is a stable sort by
the key; insertion sort with the non-strict key order is stable and
computes the same list. -/
def sort_path_and_view_info (infos : List Info) : List Info :=
  List.insertionSort info_le infos

/-- `get_path_and_view_info(app_class)`: one record per walked
`(action, path)` pair (the walk starts at base path `''`), then sort. -/
def get_path_and_view_info (app_class : App) : List Info :=
  sort_path_and_view_info ((get_path_and_view_actions app_class "").map make_info)

mutual
/-- The collection the spec's View Binder contract quantifies over: every
view action declared anywhere in the application tree, mounted
sub-applications included.  Stated from the spec's "entire application
tree" wording purely to formalise that claim; the source never computes
this set. -/
def tree_view_actions : App → List ViewActionData
  | App.mk poms views => views ++ tree_view_actions_of_paths poms

/-- The view actions declared inside the sub-applications mounted under the
given path/mount declarations. -/
def tree_view_actions_of_paths : List PathOrMount → List ViewActionData
  | [] => []
  | PathOrMount.pathD _ :: rest => tree_view_actions_of_paths rest
  | PathOrMount.mountD _ sub :: rest =>
      tree_view_actions sub ++ tree_view_actions_of_paths rest
end

/-- Python `sorted(predicates.items())`: string pairs ordered
lexicographically, key first. -/
def pair_le (a b : String × String) : Prop :=
  toLex (a.1.data, a.2.data) ≤ toLex (b.1.data, b.2.data)

instance : DecidableRel pair_le := fun a b =>
  inferInstanceAs (Decidable (toLex (a.1.data, a.2.data) ≤ toLex (b.1.data, b.2.data)))

instance : IsTrans (String × String) pair_le := ⟨fun _ _ _ hab hbc => le_trans hab hbc⟩

instance : IsTotal (String × String) pair_le := ⟨fun _ _ => le_total _ _⟩

/-- `sorted(m.items())` as used in both loops of `format_text_helper`. -/
def sorted_items (m : List (String × String)) : List (String × String) :=
  List.insertionSort pair_le m

/-- `','.join([u'%s=%s' % (name, value) for name, value in sorted(...)])`. -/
def predicates_joined (m : List (String × String)) : String :=
  String.intercalate "," ((sorted_items m).map (fun kv => kv.1 ++ "=" ++ kv.2))

/-- `max_length(infos, name)`: `max([len(d[name]) for d in infos])`.
Python's `max` raises `ValueError` on an empty sequence; the dict access
`d[name]` is embedded as a field selector. -/
def max_length (infos : List Info) (field : Info → String) : Except String Nat :=
  match infos.map (fun d => (field d).length) with
  | [] => Except.error "ValueError: max() arg is an empty sequence"
  | n :: ns => Except.ok (ns.foldl max n)

/-- The first loop of `format_text_helper`: store `predicates_s` on every
record — the joined, key-sorted rendering for records carrying a predicate
mapping, `''` for the rest.  Calling `.items()` on an already-joined
string value would raise `AttributeError`. -/
def set_predicates_s (info : Info) : Except String Info :=
  match info.predicates with
  | none => Except.ok { info with predicates_s := some "" }
  | some (PredVal.map m) =>
      Except.ok { info with predicates_s := some (predicates_joined m) }
  | some (PredVal.str _) =>
      Except.error "AttributeError: str object has no attribute items"

/-- Python `'{x:<w}'`: left-justify to `w` characters. -/
def ljust (s : String) (w : Nat) : String :=
  s ++ String.mk (List.replicate (w - s.length) ' ')

/-- The second loop of `format_text_helper`: a record with a `predicates`
key has that key overwritten with the comma-joined sorted rendering and is
emitted through the `t_view` template (joined predicates, directive,
filelineno); any other record is emitted through the `t_path` template
(path, directive, filelineno). -/
def render_info (mpl mdl : Nat) (info : Info) : Except String (Info × String) :=
  match info.predicates with
  | some (PredVal.map m) =>
      let joined := predicates_joined m
      Except.ok ({ info with predicates := some (PredVal.str joined) },
        ljust joined mpl ++ " " ++ ljust info.directive mdl ++ " " ++ info.filelineno)
  | some (PredVal.str _) =>
      Except.error "AttributeError: str object has no attribute items"
  | none =>
      Except.ok (info,
        ljust info.path mpl ++ " " ++ ljust info.directive mdl ++ " " ++ info.filelineno)

/-- `format_text_helper(infos)`, observed after the generator is consumed:
the record list as mutated (first pass stores `predicates_s`, second pass
overwrites `predicates`) together with the yielded lines.  The maximum
widths are computed between the passes, `max_path_length` being raised to
the predicates-string maximum; `predicates_s` is present on every record
after the first pass, so the `getD` access cannot miss. -/
def format_text_helper (infos : List Info) :
    Except String (List Info × List String) := do
  let infos ← infos.mapM set_predicates_s
  let max_path_length ← max_length infos (fun d => d.path)
  let max_predicates_s_length ← max_length infos (fun d => d.predicates_s.getD "")
  let max_directive_length ← max_length infos (fun d => d.directive)
  let max_path_length := max max_path_length max_predicates_s_length
  let rendered ← infos.mapM (render_info max_path_length max_directive_length)
  Except.ok (rendered.map Prod.fst, rendered.map Prod.snd)

/-- The fixed CSV header of `format_csv`. -/
def csv_fieldnames : List String :=
  ["path", "directive", "filename", "lineno", "model", "view_name",
   "request_method", "extra_predicates"]

/-- One `DictWriter.writerow`: the listed fields only
(`extrasaction='ignore'`), absent keys rendered empty, the integer
`lineno` rendered in decimal. -/
def csv_row (d : Info) : List String :=
  [d.path, d.directive, d.filename, toString d.lineno, d.model.getD "",
   d.view_name.getD "", d.request_method.getD "", d.extra_predicates.getD ""]

/-- `format_csv`: the header row, then one row per record. -/
def format_csv (infos : List Info) : List (List String) :=
  csv_fieldnames :: infos.map csv_row

/-! ### Concrete sample data, used by witnesses and counterexamples -/

/-- A sample source location (the `filelineno` string follows dectate's
rendering, but is opaque data here). -/
def sampleCodeInfo (f : String) (n : Nat) : CodeInfo :=
  { path := f, lineno := n, filelineno := f ++ " line " ++ toString n }

/-- A sample model class with a trivial MRO. -/
def itemClass : ModelType := { id := 1, module := "pkg", name := "Item", mro := [1] }

/-- A path declaration `path("items")` on `itemClass`. -/
def itemsPath : PathActionData :=
  { model := itemClass, path := "items", absorb := false,
    directiveName := "path", codeInfo := sampleCodeInfo "app.py" 3 }

/-- A view on `itemClass` named `edit` answering `POST`. -/
def editView : ViewActionData :=
  { model := itemClass, predicates := [("name", "edit"), ("request_method", "POST")],
    internal := false, directiveName := "view", codeInfo := sampleCodeInfo "app.py" 7 }

/-- A one-path, one-view application. -/
def sampleApp : App := App.mk [PathOrMount.pathD itemsPath] [editView]

/-- An unnamed internal view on `itemClass`. -/
def internalView : ViewActionData :=
  { model := itemClass, predicates := [], internal := true,
    directiveName := "view", codeInfo := sampleCodeInfo "app.py" 9 }

/-- An application whose only view is internal. -/
def internalApp : App := App.mk [PathOrMount.pathD itemsPath] [internalView]

/-- A view on `itemClass` declared inside a mounted sub-application only. -/
def subOnlyView : ViewActionData :=
  { model := itemClass, predicates := [], internal := false,
    directiveName := "view", codeInfo := sampleCodeInfo "sub.py" 2 }

/-- A sub-application declaring `subOnlyView` and no paths. -/
def subApp : App := App.mk [] [subOnlyView]

/-- A mount declaration grafting `subApp` at `sub`. -/
def subMount : PathActionData :=
  { model := itemClass, path := "sub", absorb := false,
    directiveName := "mount", codeInfo := sampleCodeInfo "app.py" 11 }

/-- A root application with a path on `itemClass` and a mounted
sub-application that declares the only view on `itemClass`. -/
def mountedApp : App :=
  App.mk [PathOrMount.pathD itemsPath, PathOrMount.mountD subMount subApp] []

/-- A root path declared as `/`. -/
def rootSlashPath : PathActionData :=
  { model := itemClass, path := "/", absorb := false,
    directiveName := "path", codeInfo := sampleCodeInfo "app.py" 1 }

/-! ### Pure descriptions of the `format_text_helper` mutations -/

/-- The pure effect of the first `format_text_helper` pass on one record
whose `predicates` value is not already a joined string. -/
def set_predicates_s_pure (info : Info) : Info :=
  match info.predicates with
  | none => { info with predicates_s := some "" }
  | some (PredVal.map m) => { info with predicates_s := some (predicates_joined m) }
  | some (PredVal.str _) => info

/-- The pure effect of the second `format_text_helper` pass on one record
whose `predicates` value is not already a joined string: the mutated record
and the emitted line. -/
def render_pure (mpl mdl : Nat) (info : Info) : Info × String :=
  match info.predicates with
  | some (PredVal.map m) =>
      ({ info with predicates := some (PredVal.str (predicates_joined m)) },
        ljust (predicates_joined m) mpl ++ " " ++ ljust info.directive mdl ++ " " ++
          info.filelineno)
  | some (PredVal.str _) => (info, "")
  | none =>
      (info,
        ljust info.path mpl ++ " " ++ ljust info.directive mdl ++ " " ++ info.filelineno)

/-- The net mutation `format_text_helper` leaves on one record whose
`predicates` value is not already a joined string: `predicates_s` is
stored, and a predicate mapping is overwritten by its joined rendering. -/
def text_mutation (info : Info) : Info :=
  match info.predicates with
  | none => { info with predicates_s := some "" }
  | some (PredVal.map m) =>
      { info with predicates := some (PredVal.str (predicates_joined m)),
                  predicates_s := some (predicates_joined m) }
  | some (PredVal.str _) => info

/-- Tests whether a `predicates` value has already been overwritten with a
joined string (only `format_text_helper` ever does that). -/
def predicates_is_string : Option PredVal → Bool
  | some (PredVal.str _) => true
  | _ => false

/-! ### Helper lemmas -/

/-- The resolved path of an action is its base followed by one `/` and the
normalized template (with the absorb suffix folded into the tail). -/
theorem resolved_path_eq (base : String) (d : PathActionData) :
    resolved_path base d =
      base ++ "/" ++
        (if d.absorb then normalize_path d.path ++ "/..." else normalize_path d.path) := by
  unfold resolved_path
  by_cases h : d.absorb <;> simp [h, String.append_assoc]

/-- A view sub-path extends its owning path on the right. -/
theorem view_sub_path_append (b : String) (v : ViewActionData) :
    ∃ t, view_sub_path b v = b ++ t := by
  unfold view_sub_path
  by_cases h : dict_get v.predicates "name" "" == ""
  · exact ⟨"", by simp [h]⟩
  · exact ⟨"/+" ++ dict_get v.predicates "name" "", by simp [h, String.append_assoc]⟩

mutual
/-- Every pair yielded by the walk of an application at a given base has a
path of the form `base ++ "/" ++ rest`. -/
theorem gpva_prefix (app : App) (base : String) (a : AnyAction) (p : String)
    (h : (a, p) ∈ get_path_and_view_actions app base) :
    ∃ rest, p = base ++ "/" ++ rest := by
  match app with
  | App.mk poms views =>
    exact walk_prefix poms views base a p (by
      simpa [get_path_and_view_actions] using h)

/-- The loop-level version of `gpva_prefix`. -/
theorem walk_prefix (poms : List PathOrMount) (views : List ViewActionData)
    (base : String) (a : AnyAction) (p : String)
    (h : (a, p) ∈ walk_path_actions poms views base) :
    ∃ rest, p = base ++ "/" ++ rest := by
  match poms with
  | [] => simp [walk_path_actions] at h
  | PathOrMount.pathD d :: rest =>
    rw [walk_path_actions] at h
    rcases List.mem_cons.mp h with hhead | htail
    · refine ⟨if d.absorb then normalize_path d.path ++ "/..." else normalize_path d.path, ?_⟩
      have := congrArg Prod.snd hhead
      simpa [resolved_path_eq] using this
    · rcases List.mem_append.mp htail with hview | hrest
      · rcases List.mem_map.mp hview with ⟨w, _, hw⟩
        obtain ⟨t, ht⟩ := view_sub_path_append (resolved_path base d) w
        have hp : p = view_sub_path (resolved_path base d) w := by
          have := congrArg Prod.snd hw
          simpa using this.symm
        refine ⟨(if d.absorb then normalize_path d.path ++ "/..." else normalize_path d.path) ++ t, ?_⟩
        rw [hp, ht, resolved_path_eq, String.append_assoc]
      · exact walk_prefix rest views base a p hrest
  | PathOrMount.mountD d sub :: rest =>
    rw [walk_path_actions] at h
    rcases List.mem_cons.mp h with hhead | htail
    · refine ⟨if d.absorb then normalize_path d.path ++ "/..." else normalize_path d.path, ?_⟩
      have := congrArg Prod.snd hhead
      simpa [resolved_path_eq] using this
    · rcases List.mem_append.mp htail with hsub | hrest
      · obtain ⟨r, hr⟩ := gpva_prefix sub (resolved_path base d) a p hsub
        refine ⟨(if d.absorb then normalize_path d.path ++ "/..." else normalize_path d.path) ++ ("/" ++ r), ?_⟩
        rw [hr, resolved_path_eq]
        rw [String.append_assoc, String.append_assoc]
      · exact walk_prefix rest views base a p hrest
end

/-- A directive's sort-key flag is `false` exactly for `path` and `mount`. -/
theorem directive_sort_key_fst_eq_false {s : String} :
    (directive_sort_key s).1 = false ↔ (s = "path" ∨ s = "mount") := by
  simp only [directive_sort_key, Bool.not_eq_false', Bool.or_eq_true, beq_iff_eq]

/-- C1: the record list returned by `get_path_and_view_info` is ascending in
the key tuple (`sort_path`, flag that is false exactly for the `path` and
`mount` directives, directive name, view name or `''`, request method or
`''`, filename, line number); consequently, at equal `sort_path`, a `path`
or `mount` record never follows a record of any other directive kind. -/
theorem c1_sorted_by_key (app_class : App) :
    List.Pairwise info_le (get_path_and_view_info app_class) ∧
    List.Pairwise
      (fun a b => a.sort_path = b.sort_path →
        (b.directive = "path" ∨ b.directive = "mount") →
        (a.directive = "path" ∨ a.directive = "mount"))
      (get_path_and_view_info app_class) := by
  have hs : List.Pairwise info_le (get_path_and_view_info app_class) :=
    List.sorted_insertionSort info_le _
  refine ⟨hs, hs.imp ?_⟩
  intro a b hab hsp hbpm
  have hbf : (directive_sort_key b.directive).1 = false :=
    directive_sort_key_fst_eq_false.mpr hbpm
  suffices haf : (directive_sort_key a.directive).1 = false from
    directive_sort_key_fst_eq_false.mp haf
  unfold info_le info_sort_key at hab
  rw [Prod.Lex.le_iff] at hab
  rcases hab with hlt | ⟨_, hab2⟩
  · rw [hsp] at hlt
    exact absurd hlt (lt_irrefl _)
  · rw [Prod.Lex.le_iff] at hab2
    rcases hab2 with hlt2 | ⟨heq2, _⟩
    · rw [Prod.Lex.lt_iff] at hlt2
      rcases hlt2 with hflt | ⟨hfeq, _⟩
      · rw [hbf] at hflt
        rcases Bool.lt_iff.mp hflt with ⟨_, h⟩
        cases h
      · rw [hfeq, hbf]
    · have hfst := congrArg (fun x => (ofLex x).1) heq2
      simpa [hbf] using hfst

/-- C4 counterexample: a path template `/` at base `''` resolves to the
one-character string `/`, not to the empty string — `'/'.join(['', ''])`
is `'/'`. -/
theorem c4_counterexample :
    normalize_path "/" = "" ∧
    resolved_path "" rootSlashPath = "/" ∧
    resolved_path "" rootSlashPath ≠ "" ∧
    get_path_actions (App.mk [PathOrMount.pathD rootSlashPath] []) "" =
      [(PathOrMount.pathD rootSlashPath, "/")] := by
  refine ⟨by decide, by decide, by decide, ?_⟩
  simp only [get_path_actions, App.paths, List.map_cons, List.map_nil,
    PathOrMount.data]
  exact congrArg (fun s => [(PathOrMount.pathD rootSlashPath, s)]) (by decide)

/-- C4 amended: a non-absorbing path action whose template is `/`
normalizes to the empty string and, resolved at base `''`, yields the
single-separator path `/` (not the empty string). -/
theorem c4_root_slash (d : PathActionData)
    (hpath : d.path = "/") (habs : d.absorb = false) :
    normalize_path d.path = "" ∧ resolved_path "" d = "/" := by
  constructor
  · rw [hpath]; decide
  · unfold resolved_path
    rw [hpath, habs]
    simp only [Bool.false_eq_true, if_false]
    decide

/-- C4 witness. -/
theorem c4_root_slash_witness :
    rootSlashPath.path = "/" ∧ rootSlashPath.absorb = false ∧
    (normalize_path rootSlashPath.path = "" ∧ resolved_path "" rootSlashPath = "/") :=
  ⟨rfl, rfl, c4_root_slash rootSlashPath rfl rfl⟩

/-- C5: on an application tree with zero declared paths the record list is
empty; `format_text_helper` then raises (Python `max` of an empty
sequence), while `format_csv` emits the header row only.  The guard the
claim describes does not exist in the code. -/
theorem c5_empty_text_raises :
    get_path_and_view_info (App.mk [] []) = [] ∧
    format_text_helper [] =
      Except.error "ValueError: max() arg is an empty sequence" ∧
    format_csv [] = [csv_fieldnames] := by
  refine ⟨by decide, rfl, rfl⟩

/-- C8 counterexample: in a concrete run, the unique view-derived record
(the one carrying a `predicates` key) also carries the `model` key, set to
the view's declaring model's dotted name — view records are not
model-free. -/
theorem c8_counterexample :
    ((get_path_and_view_info sampleApp).filter
        (fun r => r.predicates.isSome)).map (fun r => r.model) =
      [some "pkg.Item"] := by
  decide

/-- C8 amended: every record built by `get_path_and_view_info` carries the
`model` key — the record loop stores `dotted_name(action.model)`
unconditionally, for view actions included. -/
theorem c8_model_on_all_records :
    (∀ (a : AnyAction) (p : String),
      (make_info (a, p)).model = some (dotted_name a.model)) ∧
    ∀ (app_class : App) (r : Info), r ∈ get_path_and_view_info app_class →
      r.model.isSome = true := by
  have hmk : ∀ (a : AnyAction) (p : String),
      (make_info (a, p)).model = some (dotted_name a.model) := by
    intro a p
    cases a with
    | pathA d => rfl
    | mountA d => rfl
    | viewA v => by_cases h : v.internal <;> simp [make_info, AnyAction.model, h]
  refine ⟨hmk, ?_⟩
  intro app_class r hr
  rw [get_path_and_view_info, sort_path_and_view_info, List.mem_insertionSort] at hr
  rcases List.mem_map.mp hr with ⟨⟨a, p⟩, _, rfl⟩
  rw [hmk a p]
  rfl

/-- C8 amended witness. -/
theorem c8_model_on_all_records_witness :
    (make_info (AnyAction.pathA itemsPath, "/items")).model =
      some (dotted_name (AnyAction.pathA itemsPath).model) ∧
    make_info (AnyAction.pathA itemsPath, "/items") ∈ get_path_and_view_info sampleApp ∧
    (make_info (AnyAction.pathA itemsPath, "/items")).model.isSome = true :=
  ⟨c8_model_on_all_records.1 _ _, by decide,
    c8_model_on_all_records.2 sampleApp _ (by decide)⟩

/-- C9: resolution and sorting are deterministic — running
`get_path_and_view_info` twice on the same action set yields the same
record list, the sort's result is a permutation of its input that is
pairwise ascending in the key, and the key order is total, so no
comparison between records is ever unresolved. -/
theorem c9_sort_deterministic_total (app_class : App) (infos : List Info) :
    get_path_and_view_info app_class = get_path_and_view_info app_class ∧
    (sort_path_and_view_info infos).Perm infos ∧
    List.Pairwise info_le (sort_path_and_view_info infos) ∧
    ∀ a b : Info, info_le a b ∨ info_le b a :=
  ⟨rfl, List.perm_insertionSort info_le infos,
    List.sorted_insertionSort info_le infos,
    fun a b => le_total (info_sort_key a) (info_sort_key b)⟩

/-- C2 counterexample: `subOnlyView` is declared in the application tree of
`mountedApp` (inside the mounted sub-application) and its model is in the
MRO of the root path's model, yet the walk of `mountedApp` attaches no view
to `/items` at all — the index is rebuilt per sub-application, so views
from other sub-applications are never consulted. -/
theorem c2_counterexample :
    subOnlyView ∈ tree_view_actions mountedApp ∧
    subOnlyView.model.id ∈ itemsPath.model.mro ∧
    PathOrMount.pathD itemsPath ∈ mountedApp.paths ∧
    get_path_and_view_actions mountedApp "" =
      [(AnyAction.pathA itemsPath, "/items"),
       (AnyAction.mountA subMount, "/sub")] := by
  refine ⟨?_, by decide, ?_, by decide⟩
  · simp [tree_view_actions, tree_view_actions_of_paths, mountedApp, subApp]
  · simp [mountedApp, App.paths]

/-- C2 amended: for every non-mount path action of an application, every
view action declared in the *same* application whose model appears in the
path model's MRO is attached (at its view sub-path) by the walk; the claim
as written — over the entire tree's view actions — fails. -/
theorem c2_views_from_same_app (poms : List PathOrMount)
    (views : List ViewActionData) (base : String) (d : PathActionData)
    (v : ViewActionData) (hd : PathOrMount.pathD d ∈ poms) (hv : v ∈ views)
    (hm : v.model.id ∈ d.model.mro) :
    (AnyAction.viewA v, view_sub_path (resolved_path base d) v) ∈
      get_path_and_view_actions (App.mk poms views) base := by
  suffices h : (AnyAction.viewA v, view_sub_path (resolved_path base d) v) ∈
      walk_path_actions poms views base by
    simpa [get_path_and_view_actions] using h
  induction poms with
  | nil => cases hd
  | cons head rest ih =>
    rcases List.mem_cons.mp hd with heq | hmem
    · cases heq
      rw [walk_path_actions]
      apply List.mem_cons_of_mem
      apply List.mem_append_left
      simp only [get_view_actions]
      refine List.mem_map.mpr ⟨v, ?_, rfl⟩
      refine List.mem_flatMap.mpr ⟨v.model.id, hm, ?_⟩
      exact List.mem_filter.mpr ⟨hv, by simp⟩
    · cases head with
      | pathD d' =>
        rw [walk_path_actions]
        exact List.mem_cons_of_mem _ (List.mem_append_right _ (ih hmem))
      | mountD d' sub =>
        rw [walk_path_actions]
        exact List.mem_cons_of_mem _ (List.mem_append_right _ (ih hmem))

/-- C2 witness. -/
theorem c2_views_from_same_app_witness :
    PathOrMount.pathD itemsPath ∈ [PathOrMount.pathD itemsPath] ∧
    editView ∈ [editView] ∧
    editView.model.id ∈ itemsPath.model.mro ∧
    (AnyAction.viewA editView, view_sub_path (resolved_path "" itemsPath) editView) ∈
      get_path_and_view_actions (App.mk [PathOrMount.pathD itemsPath] [editView]) "" :=
  ⟨by simp, by simp, by decide,
    c2_views_from_same_app _ _ _ _ _ (by simp) (by simp) (by decide)⟩

/-- C3: a record built from an internal view action carries the literal
path `internal` while keeping the true resolved path in `sort_path` — so
its sort key's first component is the true path — and it lands in the
sorted output of `get_path_and_view_info`. -/
theorem c3_internal_views (app_class : App) (v : ViewActionData) (p : String)
    (hmem : (AnyAction.viewA v, p) ∈ get_path_and_view_actions app_class "")
    (hint : v.internal = true) :
    (make_info (AnyAction.viewA v, p)).path = "internal" ∧
    (make_info (AnyAction.viewA v, p)).sort_path = p ∧
    (ofLex (info_sort_key (make_info (AnyAction.viewA v, p)))).1 = p.data ∧
    make_info (AnyAction.viewA v, p) ∈ get_path_and_view_info app_class := by
  refine ⟨by simp [make_info, hint], by simp [make_info, hint], ?_, ?_⟩
  · show (make_info (AnyAction.viewA v, p)).sort_path.data = p.data
    simp [make_info, hint]
  · rw [get_path_and_view_info, sort_path_and_view_info, List.mem_insertionSort]
    exact List.mem_map_of_mem make_info hmem

/-- C3 witness. -/
theorem c3_internal_views_witness :
    ((AnyAction.viewA internalView, "/items") ∈
        get_path_and_view_actions internalApp "" ∧
      internalView.internal = true) ∧
    ((make_info (AnyAction.viewA internalView, "/items")).path = "internal" ∧
      (make_info (AnyAction.viewA internalView, "/items")).sort_path = "/items" ∧
      (ofLex (info_sort_key (make_info (AnyAction.viewA internalView, "/items")))).1 =
        "/items".data ∧
      make_info (AnyAction.viewA internalView, "/items") ∈
        get_path_and_view_info internalApp) :=
  ⟨⟨by decide, by decide⟩,
    c3_internal_views internalApp internalView "/items" (by decide) (by decide)⟩

/-- C6: for a non-mount path action's model, `get_view_actions` over the
per-model index attaches exactly the views indexed under some class of the
model's MRO — each eligible view appears (ancestor-declared and
descendant-declared views alike, as distinct records), at its view
sub-path — and the number of records equals the number of
(class-in-MRO, indexed view) matches. -/
theorem c6_all_mro_matches (base : String) (views : List ViewActionData)
    (model : ModelType) (v : ViewActionData) (p : String) :
    ((AnyAction.viewA v, p) ∈ get_view_actions base (model_to_view views) model ↔
      (v ∈ views ∧ v.model.id ∈ model.mro ∧ p = view_sub_path base v)) ∧
    (get_view_actions base (model_to_view views) model).length =
      (model.mro.map (fun cls => (model_to_view views cls).length)).sum := by
  constructor
  · constructor
    · intro h
      simp only [get_view_actions] at h
      rcases List.mem_map.mp h with ⟨w, hw, heq⟩
      have hfst := congrArg Prod.fst heq
      have hsnd := congrArg Prod.snd heq
      simp only [AnyAction.viewA.injEq] at hfst
      rcases List.mem_flatMap.mp hw with ⟨cls, hcls, hfil⟩
      rcases List.mem_filter.mp hfil with ⟨hmem, hbeq⟩
      have hid : w.model.id = cls := by simpa using hbeq
      rw [← hfst]
      exact ⟨hmem, hid ▸ hcls, hsnd.symm⟩
    · rintro ⟨hv, hm, rfl⟩
      simp only [get_view_actions]
      refine List.mem_map.mpr ⟨v, ?_, rfl⟩
      refine List.mem_flatMap.mpr ⟨v.model.id, hm, ?_⟩
      exact List.mem_filter.mpr ⟨hv, by simp⟩
  · simp only [get_view_actions, List.length_map, List.length_flatMap]
    rfl

/-- C7: every record contributed by a walk rooted at a mount's resolved
path — in particular, everything a mount's nested application contributes —
has a path equal to that base followed by exactly one `/` separator and a
tail; the walk itself is a total function on the (finite, acyclic)
application tree, so it terminates. -/
theorem c7_mount_records_prefixed (sub : App) (mount_path : String)
    (a : AnyAction) (p : String)
    (h : (a, p) ∈ get_path_and_view_actions sub mount_path) :
    ∃ rest, p = mount_path ++ "/" ++ rest :=
  gpva_prefix sub mount_path a p h

/-- C7 witness. -/
theorem c7_mount_records_prefixed_witness :
    (AnyAction.pathA itemsPath, "/api/items") ∈
      get_path_and_view_actions sampleApp "/api" ∧
    ∃ rest, "/api/items" = "/api" ++ "/" ++ rest :=
  ⟨by decide,
    c7_mount_records_prefixed sampleApp "/api" (AnyAction.pathA itemsPath)
      "/api/items" (by decide)⟩

/-- Binding an `Except.ok` value reduces to applying the continuation. -/
theorem except_bind_ok {α β : Type} (a : α) (f : α → Except String β) :
    (Except.ok a >>= f : Except String β) = f a := rfl

/-- A monadic map over `Except` whose body always succeeds computes the
pure map. -/
theorem mapM_ok_of_forall {α β : Type} (f : α → Except String β) (g : α → β)
    (l : List α) (h : ∀ x ∈ l, f x = Except.ok (g x)) :
    l.mapM f = Except.ok (l.map g) := by
  induction l with
  | nil => rfl
  | cons x xs ih =>
    rw [List.mapM_cons, h x (List.mem_cons_self x xs),
      ih (fun y hy => h y (List.mem_cons_of_mem _ hy))]
    rfl

/-- `max_length` succeeds on every non-empty record list. -/
theorem max_length_ok (infos : List Info) (field : Info → String)
    (h : infos ≠ []) : ∃ n, max_length infos field = Except.ok n := by
  cases infos with
  | nil => exact absurd rfl h
  | cons x xs =>
    exact ⟨(xs.map (fun d => (field d).length)).foldl max (field x).length, rfl⟩

/-- A pointwise relation between a list and its image under a map. -/
theorem forall₂_map_self {α β : Type} (R : α → β → Prop) (g : α → β)
    (l : List α) (h : ∀ x ∈ l, R x (g x)) : List.Forall₂ R l (l.map g) := by
  induction l with
  | nil => exact List.Forall₂.nil
  | cons x xs ih =>
    exact List.Forall₂.cons (h x (List.mem_cons_self x xs))
      (ih (fun y hy => h y (List.mem_cons_of_mem _ hy)))

/-- C10: consuming the `format_text_helper` generator mutates its input
records — every record gains a `predicates_s` key, and every record that
carried a predicate mapping has it overwritten in place by the
comma-joined, key-sorted `key=value` rendering. -/
theorem c10_formatting_mutates (infos : List Info) (hne : infos ≠ [])
    (hpred : ∀ i ∈ infos, predicates_is_string i.predicates = false) :
    ∃ lines,
      format_text_helper infos = Except.ok (infos.map text_mutation, lines) ∧
      List.Forall₂
        (fun old new =>
          new.predicates_s.isSome = true ∧
          (old.predicates = none → new = { old with predicates_s := some "" }) ∧
          (∀ m, old.predicates = some (PredVal.map m) →
            new = { old with
                      predicates := some (PredVal.str (predicates_joined m)),
                      predicates_s := some (predicates_joined m) }))
        infos (infos.map text_mutation) := by
  have hstr : ∀ x ∈ infos, ∀ s, x.predicates ≠ some (PredVal.str s) := by
    intro x hx s hcontra
    have := hpred x hx
    rw [hcontra] at this
    simp [predicates_is_string] at this
  have h1 : infos.mapM set_predicates_s =
      Except.ok (infos.map set_predicates_s_pure) := by
    apply mapM_ok_of_forall
    intro x hx
    cases hp : x.predicates with
    | none => simp [set_predicates_s, set_predicates_s_pure, hp]
    | some pv =>
      cases pv with
      | map m => simp [set_predicates_s, set_predicates_s_pure, hp]
      | str s => exact absurd hp (hstr x hx s)
  have hne1 : infos.map set_predicates_s_pure ≠ [] := by
    cases infos with
    | nil => exact absurd rfl hne
    | cons x xs => simp
  obtain ⟨n1, hml1⟩ := max_length_ok _ (fun d => d.path) hne1
  obtain ⟨n2, hml2⟩ := max_length_ok _ (fun d => d.predicates_s.getD "") hne1
  obtain ⟨n3, hml3⟩ := max_length_ok _ (fun d => d.directive) hne1
  have h2 : (infos.map set_predicates_s_pure).mapM (render_info (max n1 n2) n3) =
      Except.ok ((infos.map set_predicates_s_pure).map (render_pure (max n1 n2) n3)) := by
    apply mapM_ok_of_forall
    intro x hx
    rcases List.mem_map.mp hx with ⟨old, hold, rfl⟩
    cases hp : old.predicates with
    | none => simp [set_predicates_s_pure, hp, render_info, render_pure]
    | some pv =>
      cases pv with
      | map m => simp [set_predicates_s_pure, hp, render_info, render_pure]
      | str s => exact absurd hp (hstr old hold s)
  have hmut : ((infos.map set_predicates_s_pure).map
        (render_pure (max n1 n2) n3)).map Prod.fst = infos.map text_mutation := by
    rw [List.map_map, List.map_map]
    apply List.map_congr_left
    intro x hx
    cases hp : x.predicates with
    | none => simp [Function.comp, set_predicates_s_pure, render_pure, text_mutation, hp]
    | some pv =>
      cases pv with
      | map m =>
        simp [Function.comp, set_predicates_s_pure, render_pure, text_mutation, hp]
      | str s => exact absurd hp (hstr x hx s)
  refine ⟨((infos.map set_predicates_s_pure).map
      (render_pure (max n1 n2) n3)).map Prod.snd, ?_, ?_⟩
  · show format_text_helper infos = _
    rw [format_text_helper, h1, except_bind_ok, hml1, except_bind_ok, hml2,
      except_bind_ok, hml3, except_bind_ok]
    simp only [h2, except_bind_ok, hmut]
  · apply forall₂_map_self
    intro x hx
    cases hp : x.predicates with
    | none =>
      refine ⟨?_, fun _ => ?_, fun m hm => ?_⟩
      · simp [text_mutation, hp]
      · simp [text_mutation, hp]
      · cases hm
    | some pv =>
      cases pv with
      | map m0 =>
        refine ⟨?_, fun hnone => ?_, fun m hm => ?_⟩
        · simp [text_mutation, hp]
        · cases hnone
        · injection hm with hm1
          injection hm1 with hm2
          subst hm2
          simp [text_mutation, hp]
      | str s => exact absurd hp (hstr x hx s)

/-- C10 witness. -/
theorem c10_formatting_mutates_witness :
    (get_path_and_view_info sampleApp ≠ [] ∧
      ∀ i ∈ get_path_and_view_info sampleApp,
        predicates_is_string i.predicates = false) ∧
    ∃ lines,
      format_text_helper (get_path_and_view_info sampleApp) =
        Except.ok ((get_path_and_view_info sampleApp).map text_mutation, lines) ∧
      List.Forall₂
        (fun old new =>
          new.predicates_s.isSome = true ∧
          (old.predicates = none → new = { old with predicates_s := some "" }) ∧
          (∀ m, old.predicates = some (PredVal.map m) →
            new = { old with
                      predicates := some (PredVal.str (predicates_joined m)),
                      predicates_s := some (predicates_joined m) }))
        (get_path_and_view_info sampleApp)
        ((get_path_and_view_info sampleApp).map text_mutation) :=
  ⟨⟨by decide, by decide⟩,
    c10_formatting_mutates (get_path_and_view_info sampleApp) (by decide) (by decide)⟩
